import Mathlib

/-!
Verification of the ngram-grader core: a shallow embedding of the effort
classifier (`app/effort.py`) and of the binary-search placement manager
(`app/sort_app/placement_manager.py`), with theorems checking the
natural-language specification against the code.

Modelling conventions:
* Python `tuple[int, ...]` key sequences become `List Nat`.
* Python dicts become association lists (`List (key × value)`); lookup is
  first-match, which agrees with dict lookup since the dicts in the source
  have unique keys.
* Python exceptions (`raise ValueError`, `IndexError` from out-of-range
  indexing, `KeyError` from a failed dict subscript) become the `.error`
  branch of `Except String`.  A raise happens before any assignment in all
  the modelled methods, so an `.error` result corresponds to the Python
  object keeping its previous state.
* The float effort scores of `DirectionType` are scaled by 10 to natural
  numbers; only their relative order is ever used (via `max`).
* Display-only fields of `Hand` (`key_categories`, `colors`) and the
  display helpers are omitted: no classification logic reads them.
-/

/-- `KeySeq = tuple[int, ...]` from the source. -/
abbrev KeySeq : Type := List Nat

/-- `FingerType` enum (`effort.py`): values from `auto()` are 1..5 from
least to most effort: T < I < M < R < P. -/
inductive FingerType : Type
| T
| I
| M
| R
| P
deriving DecidableEq, Repr, Fintype

/-- The `auto()` value backing each `FingerType` member (used by the
`OrderedStrEnum` comparison operators). -/
def FingerType.value : FingerType → Nat
| .T => 1
| .I => 2
| .M => 3
| .R => 4
| .P => 5

/-- `FingerType.from_str` (`effort.py`): dict lookup keyed by the letters
t/i/m/r/p; any other string raises `KeyError`. -/
def FingerType.from_str (finger : String) : Except String FingerType :=
if finger = "t" then .ok .T
else if finger = "i" then .ok .I
else if finger = "m" then .ok .M
else if finger = "r" then .ok .R
else if finger = "p" then .ok .P
else .error "KeyError"

/-- `RepeatType` enum (`effort.py`): REP < SFS < SFB < RSFT < SFT. -/
inductive RepeatType : Type
| REP
| SFS
| SFB
| RSFT
| SFT
deriving DecidableEq, Repr

/-- `RowDiffType` enum (`effort.py`), in `auto()` order. -/
inductive RowDiffType : Type
| RowDiff2u
| MiddleBelowIndex2u
| MiddleBelowPinky1u
| IndexBelowPinky2u
| MiddleBelowRing2u
| PinkyBelowRing2u
| MiddleBelowPinky2u
| RingBelowPinky1u
| RingBelowPinky2u
deriving DecidableEq, Repr

/-- `DirectionType` enum (`effort.py`).  The Python values are floats
(0.4, 0.8, 1.5, 2.5, 3.1, 7, 10, 25); here they are scaled by ten, which
preserves the order the code compares by. -/
inductive DirectionType : Type
| Redirect1
| InwardsPinkyMiddle
| InwardsPinkyRing
| OutwardsMiddlePinky
| Redirect2
| OutwardsRingPinky
| Redirect3
| Redirect4
deriving DecidableEq, Repr, Fintype

/-- The numeric value backing each `DirectionType` member (scaled by 10). -/
def DirectionType.value : DirectionType → Nat
| .Redirect1 => 4
| .InwardsPinkyMiddle => 8
| .InwardsPinkyRing => 15
| .OutwardsMiddlePinky => 25
| .Redirect2 => 31
| .OutwardsRingPinky => 70
| .Redirect3 => 100
| .Redirect4 => 250

/-- Python `max(a, b)` over `OrderedStrEnum` members: keeps `a` unless
`b` compares strictly greater by the backing value. -/
def DirectionType.pymax (a b : DirectionType) : DirectionType :=
if a.value < b.value then b else a

/-- `get_rowdiff_for_bigram` (`effort.py`).  `row1`, `row2` are the row
components of the matrix positions; rows grow downward.  Python
`max(..., key=...)`/`min(..., key=...)` return the first argument on
ties, and the `diff == 0` early return makes ties irrelevant anyway. -/
def get_rowdiff_for_bigram (finger1 : FingerType) (row1 : Int)
    (finger2 : FingerType) (row2 : Int) : Option RowDiffType :=
let lower_finger : FingerType := if row2 ≤ row1 then finger1 else finger2
let higher_finger : FingerType := if row1 ≤ row2 then finger1 else finger2
let diff : Nat := (row1 - row2).natAbs
if diff = 0 then none
else if lower_finger = .M ∧ higher_finger = .I then
  if diff = 2 then some .MiddleBelowIndex2u else none
else if lower_finger = .M ∧ higher_finger = .P then
  if diff = 1 then some .MiddleBelowPinky1u
  else if diff = 2 then some .MiddleBelowPinky2u
  else none
else if lower_finger = .P ∧ higher_finger = .R then
  if diff = 2 then some .PinkyBelowRing2u else none
else if lower_finger = .R ∧ higher_finger = .P then
  if diff = 1 then some .RingBelowPinky1u
  else if diff = 2 then some .RingBelowPinky2u
  else none
else if lower_finger = .I ∧ higher_finger = .P then
  if diff = 2 then some .IndexBelowPinky2u else none
else if lower_finger = .M ∧ higher_finger = .R then
  if diff = 2 then some .MiddleBelowRing2u else none
else if diff = 2 then some .RowDiff2u
else none

/-- `get_direction_for_bigram` (`effort.py`). -/
def get_direction_for_bigram (finger1 finger2 : FingerType) :
    Option DirectionType :=
if finger1 = .P ∧ finger2 = .R then some .InwardsPinkyRing
else if finger1 = .P ∧ finger2 = .M then some .InwardsPinkyMiddle
else if finger1 = .M ∧ finger2 = .P then some .OutwardsMiddlePinky
else if finger1 = .R ∧ finger2 = .P then some .OutwardsRingPinky
else none

/-- `get_direction_for_trigram` (`effort.py`): the fixed redirect table,
with a fall-through to the two constituent bigram directions. -/
def get_direction_for_trigram (finger1 finger2 finger3 : FingerType) :
    Option DirectionType :=
let fingers := (finger1, finger2, finger3)
if fingers = (.R, .I, .M) ∨ fingers = (.M, .R, .I) ∨
    fingers = (.I, .R, .M) ∨ fingers = (.M, .I, .R) then
  some .Redirect1
else if fingers = (.M, .I, .P) ∨ fingers = (.R, .I, .P) ∨
    fingers = (.P, .I, .M) ∨ fingers = (.P, .I, .R) then
  some .Redirect2
else if fingers = (.I, .P, .M) ∨ fingers = (.M, .P, .I) ∨
    fingers = (.I, .P, .R) ∨ fingers = (.R, .P, .I) then
  some .Redirect3
else if fingers = (.P, .M, .R) ∨ fingers = (.M, .P, .R) ∨
    fingers = (.R, .P, .M) ∨ fingers = (.R, .M, .P) then
  some .Redirect4
else
  match get_direction_for_bigram finger1 finger2,
      get_direction_for_bigram finger2 finger3 with
  | none, bigram2 => bigram2
  | bigram1, none => bigram1
  | some bigram1, some bigram2 => some (bigram1.pymax bigram2)

/-- The `Hand` pydantic model (`effort.py`), restricted to the fields the
classifiers read.  Dicts are modelled as association lists. -/
structure Hand : Type where
  symbols : List (Nat × String)
  fingers : List (Nat × String)
  matrix_positions : List (Nat × (Int × Int))
deriving DecidableEq, Repr

/-- `Hand.get_finger` (`effort.py`): `self.fingers.get(key_idx)`; a
missing key or a falsy (empty) string yields `None`; otherwise
`FingerType.from_str` (which may raise `KeyError`). -/
def Hand.get_finger (h : Hand) (key_idx : Nat) :
    Except String (Option FingerType) :=
match h.fingers.lookup key_idx with
| none => .ok none
| some f => if f = "" then .ok none else (FingerType.from_str f).map some

/-- `Hand.get_repeats_tuple` (`effort.py`).  Note the order of the
guards in the source: the empty-`fingers` check precedes the length
check, and for trigrams only `f0`/`f2` are tested against `None`. -/
def Hand.get_repeats_tuple (h : Hand) (key_seq : List Nat) :
    Except String (Option (RepeatType × FingerType)) :=
if h.fingers = [] then .ok none
else if key_seq.length = 0 then .ok none
else if key_seq.length > 3 then .error "Only supports up to trigrams"
else if key_seq.length = 1 then .ok none
else
  match key_seq with
  | [k0, k1] => do
    let f0 ← h.get_finger k0
    let f1 ← h.get_finger k1
    match f0 with
    | some g0 =>
      if f0 = f1 then
        if k0 = k1 then pure (some (.REP, g0)) else pure (some (.SFB, g0))
      else pure none
    | none => pure none
  | [k0, k1, k2] => do
    let f0 ← h.get_finger k0
    let f1 ← h.get_finger k1
    let f2 ← h.get_finger k2
    match f0, f2 with
    | some g0, some g2 =>
      if f0 = f2 ∧ f0 ≠ f1 then pure (some (.SFS, g0))
      else if f0 = f2 ∧ f0 = f1 then
        if k0 = k1 ∧ k1 = k2 then pure (some (.REP, g0))
        else if k0 = k1 ∨ k1 = k2 then pure (some (.RSFT, g0))
        else pure (some (.SFT, g0))
      else if f0 = f1 then
        if k0 = k1 then pure (some (.REP, g0)) else pure (some (.SFB, g0))
      else if f1 = f2 then pure (some (.SFB, g2))
      else pure none
    | _, _ => pure none
  | _ => .error "unreachable: length is 2 or 3 here"

/-- `Hand.get_rowdiff` (`effort.py`).  The Python result is `None`, a
1-tuple or a 2-tuple of `RowDiffType`; modelled as an optional list of
length 1 or 2.  An empty key sequence passes both length guards and then
evaluates `key_seq[0]`, raising `IndexError`. -/
def Hand.get_rowdiff (h : Hand) (key_seq : List Nat) :
    Except String (Option (List RowDiffType)) :=
if key_seq.length = 1 then .ok none
else if key_seq.length > 3 then .error "Only supports up to trigrams"
else
  match key_seq with
  | [] => .error "IndexError: tuple index out of range"
  | [k0, k1] => do
    let finger1 ← h.get_finger k0
    let finger2 ← h.get_finger k1
    match finger1, finger2 with
    | some g1, some g2 =>
      match h.matrix_positions.lookup k0, h.matrix_positions.lookup k1 with
      | some coord1, some coord2 =>
        match get_rowdiff_for_bigram g1 coord1.2 g2 coord2.2 with
        | none => pure none
        | some diff1 => pure (some [diff1])
      | _, _ => pure none
    | _, _ => pure none
  | [k0, k1, k2] => do
    let finger1 ← h.get_finger k0
    let finger2 ← h.get_finger k1
    match finger1, finger2 with
    | some g1, some g2 =>
      match h.matrix_positions.lookup k0, h.matrix_positions.lookup k1 with
      | some coord1, some coord2 => do
        let diff1 := get_rowdiff_for_bigram g1 coord1.2 g2 coord2.2
        let finger3 ← h.get_finger k2
        match finger3 with
        | none => pure none
        | some g3 =>
          match h.matrix_positions.lookup k2 with
          | none => pure none
          | some coord3 =>
            match get_rowdiff_for_bigram g2 coord2.2 g3 coord3.2 with
            | none =>
              match diff1 with
              | none => pure none
              | some d1 => pure (some [d1])
            | some diff2 =>
              match diff1 with
              | none => pure (some [diff2])
              | some d1 => pure (some [d1, diff2])
      | _, _ => pure none
    | _, _ => pure none
  | _ => .error "unreachable: length is 0, 2 or 3 here"

/-- `Hand.get_direction` (`effort.py`). -/
def Hand.get_direction (h : Hand) (key_seq : List Nat) :
    Except String (Option DirectionType) :=
if key_seq.length ≤ 1 then .ok none
else if key_seq.length > 3 then .error "Only supports up to trigrams"
else
  match key_seq with
  | [k0, k1] => do
    let finger1 ← h.get_finger k0
    let finger2 ← h.get_finger k1
    match finger1, finger2 with
    | some g1, some g2 => pure (get_direction_for_bigram g1 g2)
    | _, _ => pure none
  | [k0, k1, k2] => do
    let finger1 ← h.get_finger k0
    let finger2 ← h.get_finger k1
    match finger1, finger2 with
    | some g1, some g2 => do
      let finger3 ← h.get_finger k2
      match finger3 with
      | none => pure none
      | some g3 => pure (get_direction_for_trigram g1 g2 g3)
    | _, _ => pure none
  | _ => .error "unreachable: length is 2 or 3 here"

/-- Is a direction one of the four redirect levels? -/
def DirectionType.is_redirect : DirectionType → Bool
| .Redirect1 => true
| .Redirect2 => true
| .Redirect3 => true
| .Redirect4 => true
| _ => false

/-- The fall-through combination described by the spec for trigrams that
match no 3-distinct-finger table entry: the greater of the two
constituent bigram directions, or whichever is non-null, or none. -/
def direction_bigram_fallback (finger1 finger2 finger3 : FingerType) :
    Option DirectionType :=
match get_direction_for_bigram finger1 finger2,
    get_direction_for_bigram finger2 finger3 with
| none, none => none
| some b1, none => some b1
| none, some b2 => some b2
| some b1, some b2 => some (if b1.value < b2.value then b2 else b1)

/-- `get_union_of_keys` (`effort.py`): `sorted(set(left) | set(right))`
over the symbol-map keys — the ascending enumeration of the distinct key
indices of the two hands, modelled as sorting the deduplicated
concatenation. -/
def get_union_of_keys (left right : Hand) : List Nat :=
List.insertionSort (· ≤ ·)
  ((left.symbols.map Prod.fst ++ right.symbols.map Prod.fst).dedup)

/-- `itertools.product(key_indices, repeat=n)`: all length-`n` tuples
over `key_indices`, first position varying slowest (lexicographic in the
order of `key_indices`). -/
def itertools_product (key_indices : List Nat) : Nat → List (List Nat)
| 0 => [[]]
| n + 1 =>
  key_indices.flatMap (fun k => (itertools_product key_indices n).map (k :: ·))

/-- `permutation_is_typable` (`effort.py`): the loop with `break` is
"some hand's symbol map contains every key of the tuple". -/
def permutation_is_typable (left right : Hand) (permutation : List Nat) :
    Bool :=
[left, right].any (fun hand =>
  permutation.all (fun key => (hand.symbols.map Prod.fst).contains key))

/-- `create_permutations` (`effort.py`): for each requested length, the
cartesian-product tuples over the union of key indices, filtered by
`permutation_is_typable`, appended in order. -/
def create_permutations (left right : Hand)
    (sequence_lengths : List Nat) : List (List Nat) :=
sequence_lengths.flatMap (fun seq_length =>
  (itertools_product (get_union_of_keys left right) seq_length).filter
    (fun seq => permutation_is_typable left right seq))

/-- `NgramPlacementState` dataclass (`placement_manager.py`); the field
name `hight_effort_sequences` is the source's own spelling. -/
structure NgramPlacementState : Type where
  highest_low : Option KeySeq
  lowest_high : Option KeySeq
  low_effort_sequences : List KeySeq
  hight_effort_sequences : List KeySeq
deriving DecidableEq, Repr

/-- `SideName = Literal["left", "right"]`. -/
inductive SideName : Type
| left
| right
deriving DecidableEq, Repr

/-- `split_ordered_ngrams_into_two_halfs` (`placement_manager.py`).
`midpoint = n // 2`, incremented when `n` is odd and the larger side is
the left one (`n / 2 != midpoint` is the Python float-division odd
test). -/
def split_ordered_ngrams_into_two_halfs (ordered_key_sequences : List KeySeq)
    (larger_size : SideName) :
    Option KeySeq × Option KeySeq × List KeySeq × List KeySeq :=
let n := ordered_key_sequences.length
let midpoint := if n % 2 ≠ 0 ∧ larger_size = .left then n / 2 + 1 else n / 2
let low_effort_sequences := ordered_key_sequences.take midpoint
let hight_effort_sequences := ordered_key_sequences.drop midpoint
(low_effort_sequences.getLast?, hight_effort_sequences.head?,
  low_effort_sequences, hight_effort_sequences)

/-- The four returned components packed as the `NgramPlacementState` the
manager stores (the source splats the tuple into the dataclass). -/
def splitState (ordered : List KeySeq) (larger_size : SideName) :
    NgramPlacementState :=
let t := split_ordered_ngrams_into_two_halfs ordered larger_size
⟨t.1, t.2.1, t.2.2.1, t.2.2.2⟩

/-- `NgramPlacementManager` (`placement_manager.py`), without the
UI callback (`refresh_callback` only invokes it; it never changes the
fields modelled here). -/
structure NgramPlacementManager : Type where
  all_ngrams : List KeySeq
  _current_index : Nat
  current_ngram : KeySeq
  ordered_ngrams : List KeySeq
  placement_state : NgramPlacementState
  _current_ngram_movement_history : List NgramPlacementState
deriving DecidableEq, Repr

/-- `is_finished` (`placement_manager.py`). -/
def NgramPlacementManager.is_finished (m : NgramPlacementManager) : Bool :=
m.ordered_ngrams.length ≥ m.all_ngrams.length

/-- `left_of_current` property. -/
def NgramPlacementManager.left_of_current (m : NgramPlacementManager) :
    Option KeySeq :=
m.placement_state.highest_low

/-- `right_of_current` property. -/
def NgramPlacementManager.right_of_current (m : NgramPlacementManager) :
    Option KeySeq :=
m.placement_state.lowest_high

/-- `ngrams_left_side_of_current` property. -/
def NgramPlacementManager.ngrams_left_side_of_current
    (m : NgramPlacementManager) : List KeySeq :=
m.placement_state.low_effort_sequences

/-- `ngrams_right_side_of_current` property. -/
def NgramPlacementManager.ngrams_right_side_of_current
    (m : NgramPlacementManager) : List KeySeq :=
m.placement_state.hight_effort_sequences

/-- `_start_placing_next_ngram` (`placement_manager.py`):
`self.all_ngrams[self._current_index]` raises `IndexError` when the
index is out of range. -/
def NgramPlacementManager._start_placing_next_ngram
    (m : NgramPlacementManager) : Except String NgramPlacementManager :=
match m.all_ngrams[m._current_index]? with
| none => .error "IndexError: list index out of range"
| some ng => .ok { m with
    current_ngram := ng,
    placement_state := splitState m.ordered_ngrams .right,
    _current_ngram_movement_history := [] }

/-- `NgramPlacementManager.__init__`: fields are initialised and then
`_start_placing_next_ngram` runs (raising `IndexError` on an empty
universe).  The `placement_state` attribute does not exist before that
call; the placeholder below is overwritten on the only success path. -/
def NgramPlacementManager.mk_manager (permutations : List KeySeq) :
    Except String NgramPlacementManager :=
NgramPlacementManager._start_placing_next_ngram
  { all_ngrams := permutations,
    _current_index := 0,
    current_ngram := [],
    ordered_ngrams := [],
    placement_state := ⟨none, none, [], []⟩,
    _current_ngram_movement_history := [] }

/-- Python `list.index(x)`: position of the first occurrence, raising
`ValueError` when absent. -/
def pylist_index (l : List KeySeq) (x : KeySeq) : Except String Nat :=
if x ∈ l then .ok (l.indexOf x) else .error "ValueError: not in list"

/-- Python `list.insert(i, x)` for `0 ≤ i ≤ len` (the only calls made):
insert `x` so that it ends up at position `i`. -/
def pylist_insert (l : List KeySeq) (i : Nat) (x : KeySeq) : List KeySeq :=
l.take i ++ x :: l.drop i

/-- `place_current_ngram` (`placement_manager.py`).  The pair holds the
manager after the call and the returned value (`None` when finished). -/
def NgramPlacementManager.place_current_ngram (m : NgramPlacementManager) :
    Except String (NgramPlacementManager × Option KeySeq) :=
if m.is_finished then .ok (m, none)
else do
  let ordered' ←
    match m.left_of_current with
    | some l => do
      let idx_left ← pylist_index m.ordered_ngrams l
      pure (pylist_insert m.ordered_ngrams (idx_left + 1) m.current_ngram)
    | none =>
      match m.right_of_current with
      | some r => do
        let idx_right ← pylist_index m.ordered_ngrams r
        pure (pylist_insert m.ordered_ngrams idx_right m.current_ngram)
      | none => pure (m.ordered_ngrams ++ [m.current_ngram])
  let ngram_placed := m.current_ngram
  let m' := { m with ordered_ngrams := ordered',
                     _current_index := m._current_index + 1 }
  if ¬ m'.is_finished then do
    let m'' ← m'._start_placing_next_ngram
    pure (m'', some ngram_placed)
  else
    pure (m', some ngram_placed)

/-- `move_left` (`placement_manager.py`). -/
def NgramPlacementManager.move_left (m : NgramPlacementManager) :
    NgramPlacementManager :=
if m.left_of_current = none ∨ m.is_finished then m
else { m with
  _current_ngram_movement_history :=
    m._current_ngram_movement_history ++ [m.placement_state],
  placement_state := splitState m.ngrams_left_side_of_current .right }

/-- `move_right` (`placement_manager.py`). -/
def NgramPlacementManager.move_right (m : NgramPlacementManager) :
    NgramPlacementManager :=
if m.right_of_current = none ∨ m.is_finished then m
else { m with
  _current_ngram_movement_history :=
    m._current_ngram_movement_history ++ [m.placement_state],
  placement_state := splitState m.ngrams_right_side_of_current .left }

/-- `move_back` (`placement_manager.py`): pop the last pushed state, if
any. -/
def NgramPlacementManager.move_back (m : NgramPlacementManager) :
    NgramPlacementManager :=
if m.is_finished then m
else
  match m._current_ngram_movement_history.getLast? with
  | some st => { m with
      placement_state := st,
      _current_ngram_movement_history :=
        m._current_ngram_movement_history.dropLast }
  | none => m

/-- `reset_current_ngram` (`placement_manager.py`). -/
def NgramPlacementManager.reset_current_ngram (m : NgramPlacementManager) :
    Except String NgramPlacementManager :=
if m.is_finished then .ok m
else m._start_placing_next_ngram

/-- `previous_ngram` (`placement_manager.py`).  Python `list.remove`
deletes the first occurrence and raises `ValueError` when the value is
absent. -/
def NgramPlacementManager.previous_ngram (m : NgramPlacementManager) :
    Except String NgramPlacementManager :=
if m._current_index < 1 then m.reset_current_ngram
else do
  let prev_ngram ←
    match m.all_ngrams[m._current_index - 1]? with
    | none => Except.error "IndexError: list index out of range"
    | some ng => pure ng
  if prev_ngram ∈ m.ordered_ngrams then
    NgramPlacementManager._start_placing_next_ngram
      { m with ordered_ngrams := m.ordered_ngrams.erase prev_ngram,
               _current_index := m._current_index - 1 }
  else .error "ValueError: list.remove(x): x not in list"

/-- `load_state` (`placement_manager.py`): the Python set-equality check
between the given list and the length-matched universe prefix becomes
`Finset` equality.  The check precedes every assignment, so the error
branch leaves the manager unchanged. -/
def NgramPlacementManager.load_state (m : NgramPlacementManager)
    (ordered_ngrams : List KeySeq) : Except String NgramPlacementManager :=
let n_new := ordered_ngrams.length
if ordered_ngrams.toFinset ≠ (m.all_ngrams.take n_new).toFinset then
  .error "The data cannot be loaded because it contains ngrams not supported by the configuration."
else
  let m' := { m with ordered_ngrams := ordered_ngrams,
                     _current_index := n_new }
  if ¬ m'.is_finished then m'._start_placing_next_ngram
  else .ok m'

/-! ## Helper lemmas -/

theorem except_ok_bind {α β : Type} (v : α) (f : α → Except String β) :
    (Except.ok v >>= f) = f v := rfl

theorem get_finger_of_fingers_empty (h : Hand) (hf : h.fingers = [])
    (k : Nat) : h.get_finger k = .ok none := by
  unfold Hand.get_finger
  rw [hf]
  rfl

/-- Constructing over a non-empty universe: the universe is stored, the
cursor starts at 0, and the first element is loaded for placement. -/
theorem mk_manager_cons (k : KeySeq) (rest : List KeySeq) :
    NgramPlacementManager.mk_manager (k :: rest) =
      .ok ⟨k :: rest, 0, k, [], ⟨none, none, [], []⟩, []⟩ := by
  unfold NgramPlacementManager.mk_manager
    NgramPlacementManager._start_placing_next_ngram
  simp [splitState, split_ordered_ngrams_into_two_halfs]

/-! ## C10: constructing with an empty universe -/

/-- C10: constructing `NgramPlacementManager` with an empty universe list
fails with an index error, because `__init__` unconditionally begins
placing `all_ngrams[0]`; with a non-empty universe it succeeds and
begins placing the first element. -/
theorem c10_empty_universe_raises :
    NgramPlacementManager.mk_manager ([] : List KeySeq) =
      .error "IndexError: list index out of range" ∧
    ∀ (k : KeySeq) (rest : List KeySeq),
      NgramPlacementManager.mk_manager (k :: rest) =
        .ok ⟨k :: rest, 0, k, [], ⟨none, none, [], []⟩, []⟩ := by
  constructor
  · rfl
  · intro k rest
    exact mk_manager_cons k rest

/-! ## C8: every mutator is a no-op once finished -/

/-- C8: once `ordered_ngrams` has reached the size of `all_ngrams`,
`move_left`, `move_right` and `move_back` return the manager unchanged,
and `place_current_ngram` leaves it unchanged and returns no value. -/
theorem c8_finished_noops (m : NgramPlacementManager)
    (hfin : m.is_finished = true) :
    m.move_left = m ∧ m.move_right = m ∧ m.move_back = m ∧
    m.place_current_ngram = .ok (m, none) := by
  refine ⟨?_, ?_, ?_, ?_⟩
  · unfold NgramPlacementManager.move_left
    rw [if_pos (Or.inr hfin)]
  · unfold NgramPlacementManager.move_right
    rw [if_pos (Or.inr hfin)]
  · unfold NgramPlacementManager.move_back
    rw [if_pos hfin]
  · unfold NgramPlacementManager.place_current_ngram
    rw [if_pos hfin]

/-- Witness for C8 at a concrete finished manager. -/
theorem c8_finished_noops_witness :
    NgramPlacementManager.move_left
        ⟨[[0]], 1, [0], [[0]], ⟨none, none, [], []⟩, []⟩ =
      ⟨[[0]], 1, [0], [[0]], ⟨none, none, [], []⟩, []⟩ ∧
    NgramPlacementManager.move_right
        ⟨[[0]], 1, [0], [[0]], ⟨none, none, [], []⟩, []⟩ =
      ⟨[[0]], 1, [0], [[0]], ⟨none, none, [], []⟩, []⟩ ∧
    NgramPlacementManager.move_back
        ⟨[[0]], 1, [0], [[0]], ⟨none, none, [], []⟩, []⟩ =
      ⟨[[0]], 1, [0], [[0]], ⟨none, none, [], []⟩, []⟩ ∧
    NgramPlacementManager.place_current_ngram
        ⟨[[0]], 1, [0], [[0]], ⟨none, none, [], []⟩, []⟩ =
      .ok (⟨[[0]], 1, [0], [[0]], ⟨none, none, [], []⟩, []⟩, none) :=
  c8_finished_noops ⟨[[0]], 1, [0], [[0]], ⟨none, none, [], []⟩, []⟩ (by decide)

/-! ## C5: the trigram direction table -/

/-- C5: `get_direction_for_trigram` sends the claim's sample table rows
to their redirect levels and `(Index, Middle, Ring)` to none; every
redirect it ever outputs comes from a triple of pairwise-distinct
fingers; and any triple it does not classify as a redirect gets exactly
the bigram fall-through value (greater of the two bigram directions, or
whichever is non-null, or none). -/
theorem c5_direction_for_trigram_table :
    get_direction_for_trigram .M .I .R = some .Redirect1 ∧
    get_direction_for_trigram .M .I .P = some .Redirect2 ∧
    get_direction_for_trigram .M .P .I = some .Redirect3 ∧
    get_direction_for_trigram .M .P .R = some .Redirect4 ∧
    get_direction_for_trigram .I .M .R = none ∧
    (∀ f1 f2 f3 : FingerType, ∀ d : DirectionType,
      get_direction_for_trigram f1 f2 f3 = some d → d.is_redirect = true →
        f1 ≠ f2 ∧ f2 ≠ f3 ∧ f1 ≠ f3) ∧
    (∀ f1 f2 f3 : FingerType,
      (∃ d : DirectionType, get_direction_for_trigram f1 f2 f3 = some d ∧
          d.is_redirect = true) ∨
        get_direction_for_trigram f1 f2 f3 =
          direction_bigram_fallback f1 f2 f3) := by
  refine ⟨rfl, rfl, rfl, rfl, rfl, ?_, ?_⟩
  · decide
  · decide

/-- Witness for the hypothesis-bearing conjunct of C5 at the concrete
triple (Middle, Index, Ring). -/
theorem c5_direction_for_trigram_table_witness :
    (FingerType.M ≠ FingerType.I ∧ FingerType.I ≠ FingerType.R ∧
      FingerType.M ≠ FingerType.R) :=
  c5_direction_for_trigram_table.2.2.2.2.2.1 .M .I .R .Redirect1 rfl rfl

/-! ## C1: repeats classification with missing finger data -/

/-- A hand whose finger map resolves keys 0 and 2 (both to Index) but
not the middle key 1 of the sequence `(0, 1, 2)`. -/
def handMissingMiddle : Hand := ⟨[], [(0, "i"), (2, "i")], []⟩

/-- C1 counterexample: the middle key of `(0, 1, 2)` has no finger
assignment, yet `get_repeats_tuple` classifies the sequence (as SFS on
the index finger) instead of returning no-classification. -/
theorem c1_missing_middle_still_classified :
    handMissingMiddle.get_finger 1 = .ok none ∧
    handMissingMiddle.get_repeats_tuple [0, 1, 2] =
      .ok (some (.SFS, .I)) ∧
    handMissingMiddle.get_repeats_tuple [0, 1, 2] ≠ .ok none := by
  refine ⟨rfl, rfl, ?_⟩
  intro hc
  have h' : (Except.ok (some (RepeatType.SFS, FingerType.I)) :
      Except String (Option (RepeatType × FingerType))) = .ok none := hc
  exact Option.noConfusion (Except.ok.inj h')

/-- C1 amended: for a length-3 sequence (with none of the three finger
lookups raising), `get_repeats_tuple` returns no-classification whenever
the lookup of the first or the third key fails to resolve; a missing
middle finger alone does not force no-classification: with f0 and f2
resolved the result is then SFS when they are equal, and
no-classification otherwise. -/
theorem c1_repeats_missing_fingers (h : Hand) (k0 k1 k2 : Nat)
    (v0 v1 v2 : Option FingerType)
    (h0 : h.get_finger k0 = .ok v0) (h1 : h.get_finger k1 = .ok v1)
    (h2 : h.get_finger k2 = .ok v2) :
    ((v0 = none ∨ v2 = none) →
      h.get_repeats_tuple [k0, k1, k2] = .ok none) ∧
    (∀ g0 g2 : FingerType, v0 = some g0 → v2 = some g2 → v1 = none →
      h.get_repeats_tuple [k0, k1, k2] =
        .ok (if g0 = g2 then some (.SFS, g0) else none)) := by
  constructor
  · intro hnone
    by_cases hf : h.fingers = []
    · unfold Hand.get_repeats_tuple
      rw [if_pos hf]
    · unfold Hand.get_repeats_tuple
      rw [if_neg hf]
      simp only [List.length_cons, List.length_nil]
      norm_num
      rw [h0, except_ok_bind, h1, except_ok_bind, h2, except_ok_bind]
      rcases hnone with h' | h' <;> subst h'
      · cases v2 <;> rfl
      · cases v0 <;> rfl
  · intro g0 g2 hg0 hg2 hg1
    subst hg0
    subst hg2
    subst hg1
    have hf : h.fingers ≠ [] := by
      intro hf
      rw [get_finger_of_fingers_empty h hf k0] at h0
      exact Option.noConfusion (Except.ok.inj h0)
    unfold Hand.get_repeats_tuple
    rw [if_neg hf]
    simp only [List.length_cons, List.length_nil]
    norm_num
    rw [h0, except_ok_bind, h1, except_ok_bind, h2, except_ok_bind]
    by_cases hg : g0 = g2
    · subst hg
      simp
      rfl
    · have hne : (some g0 : Option FingerType) ≠ some g2 := by
        intro hc
        exact hg (Option.some.inj hc)
      simp [hne, hg]
      rfl

/-- Witness for C1's amended theorem at the concrete hand with a missing
middle-finger assignment. -/
theorem c1_repeats_missing_fingers_witness :
    handMissingMiddle.get_repeats_tuple [0, 1, 2] =
      .ok (if FingerType.I = FingerType.I
        then some (RepeatType.SFS, FingerType.I) else none) :=
  (c1_repeats_missing_fingers handMissingMiddle 0 1 2 (some .I) none
    (some .I) rfl rfl rfl).2 .I .I rfl rfl rfl

/-! ## C2: row-diff classification with missing data -/

/-- A hand resolving finger and matrix position for keys 0 and 1 only;
the bigram `(0, 1)` classifies as MiddleBelowIndex2u. -/
def handMissingThird : Hand :=
  ⟨[], [(0, "m"), (1, "i")], [(0, (0, 2)), (1, (0, 0))]⟩

/-- C2 counterexample: bigram `(0, 1)` fully resolves and classifies,
but the third key of `(0, 1, 2)` has no finger assignment; `get_rowdiff`
returns no-classification for the trigram instead of the 1-tuple with
bigram `(0, 1)`'s classification. -/
theorem c2_missing_third_discards_first_bigram :
    handMissingThird.get_rowdiff [0, 1] =
      .ok (some [.MiddleBelowIndex2u]) ∧
    handMissingThird.get_finger 2 = .ok none ∧
    handMissingThird.get_rowdiff [0, 1, 2] = .ok none ∧
    handMissingThird.get_rowdiff [0, 1, 2] ≠
      .ok (some [.MiddleBelowIndex2u]) := by
  refine ⟨rfl, rfl, rfl, ?_⟩
  intro hc
  have h' : (Except.ok none :
      Except String (Option (List RowDiffType))) =
    .ok (some [.MiddleBelowIndex2u]) := hc
  exact Option.noConfusion (Except.ok.inj h')

/-- C2 amended: `get_rowdiff` on a trigram requires finger and matrix
position data for every one of the three keys; when the first bigram
fully resolves but the third key's finger or position is missing, the
whole result is no-classification (the first bigram's classification is
discarded).  Only when all three keys resolve does it combine the two
bigram classifications: both in order, else whichever single one
classifies as a 1-tuple, else no-classification. -/
theorem c2_rowdiff_requires_all_keys (h : Hand) (k0 k1 k2 : Nat)
    (g0 g1 : FingerType) (c0 c1 : Int × Int)
    (h0 : h.get_finger k0 = .ok (some g0))
    (h1 : h.get_finger k1 = .ok (some g1))
    (p0 : h.matrix_positions.lookup k0 = some c0)
    (p1 : h.matrix_positions.lookup k1 = some c1) :
    (h.get_finger k2 = .ok none →
      h.get_rowdiff [k0, k1, k2] = .ok none) ∧
    (∀ g2 : FingerType, h.get_finger k2 = .ok (some g2) →
      h.matrix_positions.lookup k2 = none →
      h.get_rowdiff [k0, k1, k2] = .ok none) ∧
    (∀ (g2 : FingerType) (c2 : Int × Int),
      h.get_finger k2 = .ok (some g2) →
      h.matrix_positions.lookup k2 = some c2 →
      h.get_rowdiff [k0, k1, k2] = .ok
        (match get_rowdiff_for_bigram g0 c0.2 g1 c1.2,
            get_rowdiff_for_bigram g1 c1.2 g2 c2.2 with
        | none, none => none
        | some d1, none => some [d1]
        | none, some d2 => some [d2]
        | some d1, some d2 => some [d1, d2])) := by
  refine ⟨?_, ?_, ?_⟩
  · intro h2
    unfold Hand.get_rowdiff
    simp only [List.length_cons, List.length_nil]
    norm_num
    simp only [h0, h1, p0, p1, h2, except_ok_bind]
    rfl
  · intro g2 h2 p2
    unfold Hand.get_rowdiff
    simp only [List.length_cons, List.length_nil]
    norm_num
    simp only [h0, h1, p0, p1, h2, p2, except_ok_bind]
    rfl
  · intro g2 c2 h2 p2
    unfold Hand.get_rowdiff
    simp only [List.length_cons, List.length_nil]
    norm_num
    simp only [h0, h1, p0, p1, h2, p2, except_ok_bind]
    cases hA : get_rowdiff_for_bigram g0 c0.2 g1 c1.2 <;>
      cases hB : get_rowdiff_for_bigram g1 c1.2 g2 c2.2 <;> rfl

/-- Witness for C2's amended theorem at the concrete hand missing the
third key's data. -/
theorem c2_rowdiff_requires_all_keys_witness :
    handMissingThird.get_rowdiff [0, 1, 2] = .ok none :=
  (c2_rowdiff_requires_all_keys handMissingThird 0 1 2 .M .I (0, 2) (0, 0)
    rfl rfl rfl rfl).1 rfl

/-! ## C7: length-check failure policy of the classifiers -/

/-- C7 counterexample: a hand with an empty finger map does not raise on
a 4-key sequence in `get_repeats_tuple` — the empty-`fingers` early
return precedes the length check — while the same hand's `get_rowdiff`
and `get_direction` do raise there. -/
theorem c7_empty_fingers_no_raise :
    (⟨[], [], []⟩ : Hand).get_repeats_tuple [0, 0, 0, 0] = .ok none ∧
    (⟨[], [], []⟩ : Hand).get_rowdiff [0, 0, 0, 0] =
      .error "Only supports up to trigrams" ∧
    (⟨[], [], []⟩ : Hand).get_direction [0, 0, 0, 0] =
      .error "Only supports up to trigrams" := ⟨rfl, rfl, rfl⟩

/-- C7 amended: provided no single finger lookup raises, the three
classifiers never raise on sequences of 1 to 3 keys; on a sequence
longer than 3 keys, `get_rowdiff` and `get_direction` always raise, but
`get_repeats_tuple` raises only when the hand's finger map is non-empty
(with an empty finger map it returns no-classification instead). -/
theorem c7_length_contract (h : Hand) (ks : List Nat)
    (hok : ∀ k : Nat, (h.get_finger k).isOk = true) :
    (1 ≤ ks.length → ks.length ≤ 3 →
      (h.get_repeats_tuple ks).isOk = true ∧
      (h.get_rowdiff ks).isOk = true ∧
      (h.get_direction ks).isOk = true) ∧
    (ks.length > 3 →
      h.get_rowdiff ks = .error "Only supports up to trigrams" ∧
      h.get_direction ks = .error "Only supports up to trigrams" ∧
      (h.fingers = [] → h.get_repeats_tuple ks = .ok none) ∧
      (h.fingers ≠ [] →
        h.get_repeats_tuple ks = .error "Only supports up to trigrams")) := by
  have hfin : ∀ k : Nat, ∃ v, h.get_finger k = .ok v := by
    intro k
    have hk := hok k
    cases hv : h.get_finger k with
    | ok v => exact ⟨v, rfl⟩
    | error e =>
      rw [hv] at hk
      exact absurd hk (by simp [Except.isOk, Except.toBool])
  constructor
  · intro hge hle
    match ks with
    | [k0] =>
      refine ⟨?_, ?_, ?_⟩
      · unfold Hand.get_repeats_tuple
        by_cases hf : h.fingers = []
        · rw [if_pos hf]
          rfl
        · rw [if_neg hf]
          rfl
      · rfl
      · rfl
    | [k0, k1] =>
      obtain ⟨v0, h0⟩ := hfin k0
      obtain ⟨v1, h1⟩ := hfin k1
      refine ⟨?_, ?_, ?_⟩
      · unfold Hand.get_repeats_tuple
        by_cases hf : h.fingers = []
        · rw [if_pos hf]
          rfl
        · rw [if_neg hf]
          simp only [List.length_cons, List.length_nil]
          norm_num
          simp only [h0, h1, except_ok_bind]
          cases v0 <;> cases v1 <;> dsimp only <;> (repeat' split) <;> rfl
      · unfold Hand.get_rowdiff
        simp only [List.length_cons, List.length_nil]
        norm_num
        simp only [h0, h1, except_ok_bind]
        cases v0 <;> cases v1 <;> dsimp only <;> (repeat' split) <;> rfl
      · unfold Hand.get_direction
        simp only [List.length_cons, List.length_nil]
        norm_num
        simp only [h0, h1, except_ok_bind]
        cases v0 <;> cases v1 <;> dsimp only <;> (repeat' split) <;> rfl
    | [k0, k1, k2] =>
      obtain ⟨v0, h0⟩ := hfin k0
      obtain ⟨v1, h1⟩ := hfin k1
      obtain ⟨v2, h2⟩ := hfin k2
      refine ⟨?_, ?_, ?_⟩
      · unfold Hand.get_repeats_tuple
        by_cases hf : h.fingers = []
        · rw [if_pos hf]
          rfl
        · rw [if_neg hf]
          simp only [List.length_cons, List.length_nil]
          norm_num
          simp only [h0, h1, h2, except_ok_bind]
          cases v0 <;> cases v1 <;> cases v2 <;> dsimp only <;>
            (repeat' split) <;> rfl
      · unfold Hand.get_rowdiff
        simp only [List.length_cons, List.length_nil]
        norm_num
        simp only [h0, h1, h2, except_ok_bind]
        cases v0 <;> cases v1 <;> cases v2 <;> dsimp only <;>
          (repeat' split) <;> rfl
      · unfold Hand.get_direction
        simp only [List.length_cons, List.length_nil]
        norm_num
        simp only [h0, h1, h2, except_ok_bind]
        cases v0 <;> cases v1 <;> cases v2 <;> dsimp only <;>
          (repeat' split) <;> rfl
  · intro hgt
    have h4 : ks.length > 3 := hgt
    refine ⟨?_, ?_, ?_, ?_⟩
    · unfold Hand.get_rowdiff
      rw [if_neg (by omega), if_pos h4]
    · unfold Hand.get_direction
      rw [if_neg (by omega), if_pos h4]
    · intro hf
      unfold Hand.get_repeats_tuple
      rw [if_pos hf]
    · intro hf
      unfold Hand.get_repeats_tuple
      rw [if_neg hf, if_neg (by omega), if_pos h4]

/-- Witness for C7's amended theorem: a hand with no finger data and a
4-key sequence. -/
theorem c7_length_contract_witness :
    (⟨[], [], []⟩ : Hand).get_rowdiff [0, 0, 0, 0] =
      .error "Only supports up to trigrams" ∧
    (⟨[], [], []⟩ : Hand).get_direction [0, 0, 0, 0] =
      .error "Only supports up to trigrams" ∧
    (⟨[], [], []⟩ : Hand).get_repeats_tuple [0, 0, 0, 0] = .ok none := by
  have hc := (c7_length_contract ⟨[], [], []⟩ [0, 0, 0, 0]
    (fun _ => rfl)).2 (by decide)
  exact ⟨hc.1, hc.2.1, hc.2.2.1 rfl⟩

/-! ## C3: `load_state` validation -/

/-- C3: `load_state` with a list whose element set differs from the set
of the equally long universe prefix fails with the invalid-state error
(the check precedes every assignment, so in the embedding the error
result carries no mutated manager: `ordered_ngrams`, the cursor and the
placement state of the Python object stay as they were); with a matching
set it installs the given list, sets the cursor to its length, and
begins placing the next universe element — or, when the list is as long
as the universe, changes nothing else and only notifies. -/
theorem c3_load_state_prefix_check (m : NgramPlacementManager)
    (l : List KeySeq) :
    (l.toFinset ≠ (m.all_ngrams.take l.length).toFinset →
      m.load_state l = .error
        "The data cannot be loaded because it contains ngrams not supported by the configuration.") ∧
    (l.toFinset = (m.all_ngrams.take l.length).toFinset →
      (l.length < m.all_ngrams.length →
        ∃ ng, m.all_ngrams[l.length]? = some ng ∧
          m.load_state l = .ok { m with
            ordered_ngrams := l,
            _current_index := l.length,
            current_ngram := ng,
            placement_state := splitState l .right,
            _current_ngram_movement_history := [] }) ∧
      (l.length = m.all_ngrams.length →
        m.load_state l = .ok { m with
          ordered_ngrams := l,
          _current_index := l.length })) := by
  constructor
  · intro hne
    unfold NgramPlacementManager.load_state
    rw [if_pos hne]
  · intro heq
    constructor
    · intro hlt
      obtain ⟨ng, hng⟩ : ∃ ng, m.all_ngrams[l.length]? = some ng :=
        ⟨m.all_ngrams.get ⟨l.length, hlt⟩, List.getElem?_eq_getElem hlt⟩
      refine ⟨ng, hng, ?_⟩
      unfold NgramPlacementManager.load_state
      rw [if_neg (by simp [heq])]
      have hfin : NgramPlacementManager.is_finished
          { m with ordered_ngrams := l, _current_index := l.length } =
            false := by
        unfold NgramPlacementManager.is_finished
        simp
        omega
      simp only [hfin, Bool.false_eq_true, not_false_iff, if_true]
      unfold NgramPlacementManager._start_placing_next_ngram
      dsimp only
      rw [hng]
    · intro hlen
      unfold NgramPlacementManager.load_state
      rw [if_neg (by simp [heq])]
      have hfin : NgramPlacementManager.is_finished
          { m with ordered_ngrams := l, _current_index := l.length } =
            true := by
        unfold NgramPlacementManager.is_finished
        simp [hlen]
      simp [hfin]

/-- A freshly constructed manager over the universe `[(0,),...,(6,)]`
(the spec's `load_state` example). -/
def managerSeven : NgramPlacementManager :=
  ⟨[[0], [1], [2], [3], [4], [5], [6]], 0, [0], [], ⟨none, none, [], []⟩, []⟩

/-- A freshly constructed manager over the universe `[(0,),(1,),(2,)]`. -/
def managerThree : NgramPlacementManager :=
  ⟨[[0], [1], [2]], 0, [0], [], ⟨none, none, [], []⟩, []⟩

/-- Witness for C3 at the spec's concrete example (foreign element
`(9999,)` rejected) and at a concrete successful load. -/
theorem c3_load_state_prefix_check_witness :
    managerSeven.load_state [[0], [9999], [1], [2]] = .error
      "The data cannot be loaded because it contains ngrams not supported by the configuration." ∧
    ∃ ng, managerThree.all_ngrams[([[1], [0]] : List KeySeq).length]? =
        some ng ∧
      managerThree.load_state [[1], [0]] = .ok { managerThree with
        ordered_ngrams := [[1], [0]],
        _current_index := ([[1], [0]] : List KeySeq).length,
        current_ngram := ng,
        placement_state := splitState [[1], [0]] .right,
        _current_ngram_movement_history := [] } :=
  ⟨(c3_load_state_prefix_check managerSeven [[0], [9999], [1], [2]]).1
      (by decide),
    ((c3_load_state_prefix_check managerThree [[1], [0]]).2 (by decide)).1
      (by decide)⟩

/-! ## C6: the permutation generator -/

theorem sum_map_ite_count (a : Nat) (c : Nat) :
    ∀ ks : List Nat, ks.Nodup →
      (ks.map (fun k => if k = a then c else 0)).sum =
        if a ∈ ks then c else 0
| [], _ => by simp
| k :: ks, hnd => by
  have hnd' : ks.Nodup := hnd.of_cons
  by_cases hk : k = a
  · subst hk
    have hka : k ∉ ks := (List.nodup_cons.mp hnd).1
    simp [sum_map_ite_count k c ks hnd', hka]
  · simp only [List.map_cons, List.sum_cons, if_neg hk,
      sum_map_ite_count a c ks hnd', List.mem_cons]
    by_cases ha : a ∈ ks <;> simp [ha, hk, Ne.symm hk]

theorem count_map_cons (a : Nat) (t : List Nat) (k : Nat) :
    ∀ P : List (List Nat),
      (P.map (k :: ·)).count (a :: t) = if k = a then P.count t else 0
| [] => by simp
| x :: P => by
  simp only [List.map_cons, List.count_cons, count_map_cons a t k P]
  by_cases hk : k = a
  · subst hk
    by_cases hx : x = t
    · subst hx
      simp
    · simp [hx]
  · have hne : (k :: x) ≠ (a :: t) := by
      intro hc
      exact hk (List.cons.injEq _ _ _ _ ▸ hc).1
    simp [hk, hne]

theorem count_itertools_product (ks : List Nat) (hnd : ks.Nodup) :
    ∀ (n : Nat) (t : List Nat), (itertools_product ks n).count t =
      if t.length = n ∧ ∀ k ∈ t, k ∈ ks then 1 else 0
| 0, t => by
  cases t with
  | nil => simp [itertools_product]
  | cons a t' => simp [itertools_product, List.count_singleton]
| n + 1, t => by
  cases t with
  | nil =>
    simp only [itertools_product, List.length_nil]
    rw [List.count_eq_zero.mpr, if_neg (by omega)]
    intro hmem
    obtain ⟨k, _, hk⟩ := List.mem_flatMap.mp hmem
    obtain ⟨x, _, hx⟩ := List.mem_map.mp hk
    exact List.noConfusion hx
  | cons a t' =>
    simp only [itertools_product, List.count_flatMap]
    have hmapeq : (ks.map (List.count (a :: t') ∘ fun k =>
        ((itertools_product ks n).map (k :: ·)))) =
        ks.map fun k => if k = a then (itertools_product ks n).count t'
          else 0 := by
      apply List.map_congr_left
      intro k _
      simp only [Function.comp_apply]
      exact count_map_cons a t' k (itertools_product ks n)
    rw [hmapeq, sum_map_ite_count a _ ks hnd,
      count_itertools_product ks hnd n t']
    by_cases ha : a ∈ ks
    · by_cases hlen : t'.length = n
      · by_cases hsub : ∀ k ∈ t', k ∈ ks
        · simp [ha, hlen, hsub]
        · have h1 : ¬(t'.length = n ∧ ∀ k ∈ t', k ∈ ks) := by tauto
          have h2 : ¬((a :: t').length = n + 1 ∧ ∀ k ∈ a :: t', k ∈ ks) := by
            intro hc
            exact hsub fun k hk => hc.2 k (List.mem_cons_of_mem a hk)
          simp only [if_pos ha, if_neg h1, if_neg h2]
      · have h1 : ¬(t'.length = n ∧ ∀ k ∈ t', k ∈ ks) := by tauto
        have h2 : ¬((a :: t').length = n + 1 ∧ ∀ k ∈ a :: t', k ∈ ks) := by
          intro hc
          have hl := hc.1
          simp only [List.length_cons] at hl
          omega
        simp only [if_pos ha, if_neg h1, if_neg h2]
    · have h2 : ¬((a :: t').length = n + 1 ∧ ∀ k ∈ a :: t', k ∈ ks) := by
        intro hc
        exact ha (hc.2 a (List.mem_cons_self a t'))
      simp only [if_neg ha, if_neg h2]

theorem sorted_itertools_product (ks : List Nat)
    (hs : List.Sorted (· < ·) ks) :
    ∀ n : Nat,
      List.Sorted (List.Lex (· < ·)) (itertools_product ks n)
| 0 => List.sorted_singleton []
| n + 1 => by
  have ih := sorted_itertools_product ks hs n
  unfold itertools_product
  rw [List.flatMap_def]
  unfold List.Sorted at ih ⊢
  rw [List.pairwise_join]
  constructor
  · intro l' hl'
    obtain ⟨k, _, hk⟩ := List.mem_map.mp hl'
    subst hk
    exact List.pairwise_map.mpr (ih.imp fun hxy => List.Lex.cons hxy)
  · refine List.pairwise_map.mpr (hs.imp ?_)
    intro k k' hkk' x hx y hy
    obtain ⟨x0, _, hx0⟩ := List.mem_map.mp hx
    obtain ⟨y0, _, hy0⟩ := List.mem_map.mp hy
    subst hx0
    subst hy0
    exact List.Lex.rel hkk'

theorem typable_of_hand_covers (left right : Hand) (t : List Nat) :
    permutation_is_typable left right t = true ↔
      ((∀ k ∈ t, k ∈ left.symbols.map Prod.fst) ∨
        (∀ k ∈ t, k ∈ right.symbols.map Prod.fst)) := by
  unfold permutation_is_typable
  simp [List.all_eq_true]

theorem mem_union_of_typable (left right : Hand) (t : List Nat)
    (ht : permutation_is_typable left right t = true) :
    ∀ k ∈ t, k ∈ get_union_of_keys left right := by
  intro k hk
  unfold get_union_of_keys
  rw [(List.perm_insertionSort _ _).mem_iff, List.mem_dedup,
    List.mem_append]
  rcases (typable_of_hand_covers left right t).mp ht with hc | hc
  · exact Or.inl (hc k hk)
  · exact Or.inr (hc k hk)

theorem union_of_keys_nodup (left right : Hand) :
    (get_union_of_keys left right).Nodup := by
  unfold get_union_of_keys
  exact (List.perm_insertionSort _ _).symm.nodup (List.nodup_dedup _)

theorem union_of_keys_sorted_lt (left right : Hand) :
    List.Sorted (· < ·) (get_union_of_keys left right) :=
  (List.sorted_insertionSort _ _).lt_of_le (union_of_keys_nodup left right)

theorem count_typable_block (left right : Hand) (t : List Nat) (L : Nat) :
    ((itertools_product (get_union_of_keys left right) L).filter
        (fun s => permutation_is_typable left right s)).count t =
      if permutation_is_typable left right t = true ∧ t.length = L
        then 1 else 0 := by
  by_cases hp : permutation_is_typable left right t = true
  · rw [List.count_filter hp]
    rw [count_itertools_product (get_union_of_keys left right)
      (union_of_keys_nodup left right) L t]
    by_cases hlen : t.length = L
    · rw [if_pos ⟨hlen, mem_union_of_typable left right t hp⟩,
        if_pos ⟨hp, hlen⟩]
    · rw [if_neg (by tauto), if_neg (by tauto)]
  · rw [if_neg (by tauto), List.count_eq_zero.mpr]
    intro hmem
    exact hp (List.mem_filter.mp hmem).2

theorem count_create_permutations (left right : Hand) (t : List Nat) :
    ∀ lengths : List Nat,
      (create_permutations left right lengths).count t =
        if permutation_is_typable left right t = true
          then lengths.count t.length else 0
| [] => by simp [create_permutations]
| L :: ls => by
  unfold create_permutations
  rw [List.flatMap_cons, List.count_append]
  have hblock := count_typable_block left right t L
  have hrest := count_create_permutations left right t ls
  unfold create_permutations at hrest
  rw [hblock, hrest, List.count_cons]
  by_cases hp : permutation_is_typable left right t = true
  · by_cases hlen : t.length = L
    · simp [hp, hlen, Nat.add_comm]
    · simp [hp, hlen, Ne.symm hlen]
  · simp [hp]

/-- The two hands of the claim's concrete example: left symbol keys
{0, 1, 2}, right symbol keys {0, 1, 2, 3}. -/
def exampleLeftHand : Hand := ⟨[(0, "x"), (1, "y"), (2, "z")], [], []⟩

/-- Right hand of the claim's concrete example. -/
def exampleRightHand : Hand :=
  ⟨[(0, "a"), (1, "b"), (2, "c"), (3, "d")], [], []⟩

/-- C6: `create_permutations` keeps a tuple iff one single hand's symbol
map contains every key index in it; for each requested length every
typable tuple over the sorted union occurs exactly once (count formula)
and each length block is in strictly increasing lexicographic order over
the union indices; on the claim's example it returns
`[(0,), (1,), (2,), (3,)]`. -/
theorem c6_create_permutations :
    create_permutations exampleLeftHand exampleRightHand [1] =
      [[0], [1], [2], [3]] ∧
    (∀ (left right : Hand) (t : List Nat),
      permutation_is_typable left right t = true ↔
        ((∀ k ∈ t, k ∈ left.symbols.map Prod.fst) ∨
          (∀ k ∈ t, k ∈ right.symbols.map Prod.fst))) ∧
    (∀ (left right : Hand) (lengths : List Nat) (t : List Nat),
      (create_permutations left right lengths).count t =
        if permutation_is_typable left right t = true
          then lengths.count t.length else 0) ∧
    (∀ (left right : Hand) (n : Nat),
      List.Sorted (List.Lex (· < ·))
        ((itertools_product (get_union_of_keys left right) n).filter
          (fun s => permutation_is_typable left right s))) := by
  refine ⟨?_, typable_of_hand_covers, ?_, ?_⟩
  · decide
  · intro left right lengths t
    exact count_create_permutations left right t lengths
  · intro left right n
    exact List.Pairwise.filter _
      (sorted_itertools_product _ (union_of_keys_sorted_lt left right) n)

/-! ## C4: the placement round-trip -/

theorem except_pure_bind {α β : Type} (v : α) (f : α → Except String β) :
    ((pure v : Except String α) >>= f) = f v := rfl

/-- `split(..., larger_size="right")` never increments the midpoint. -/
theorem splitState_right (l : List KeySeq) :
    splitState l .right =
      ⟨(l.take (l.length / 2)).getLast?, (l.drop (l.length / 2)).head?,
        l.take (l.length / 2), l.drop (l.length / 2)⟩ := by
  unfold splitState split_ordered_ngrams_into_two_halfs
  simp

theorem pylist_insert_perm (l : List KeySeq) (i : Nat) (x : KeySeq) :
    (pylist_insert l i x).Perm (x :: l) := by
  unfold pylist_insert
  have h1 : (l.take i ++ x :: l.drop i).Perm (x :: (l.take i ++ l.drop i)) :=
    List.perm_middle
  rw [List.take_append_drop] at h1
  exact h1

/-- Invariant of a manager that has placed its ordered prefix with the
default midpoint and no pending narrowing: the cursor equals the number
of placed ngrams, the placed ngrams are a permutation of the universe
prefix, and (while unfinished) the current ngram and the placement state
are the freshly computed ones. -/
def PlaceInv (all : List KeySeq) (m : NgramPlacementManager) : Prop :=
  m.all_ngrams = all ∧
  m._current_index = m.ordered_ngrams.length ∧
  m.ordered_ngrams.length ≤ all.length ∧
  m.ordered_ngrams.Perm (all.take m.ordered_ngrams.length) ∧
  (m.ordered_ngrams.length < all.length →
    all[m.ordered_ngrams.length]? = some m.current_ngram ∧
    m.placement_state = splitState m.ordered_ngrams .right)

/-- Common tail of a placement step: after the insertion produced
`ordered'`, the cursor advances and (unless finished) the next ngram is
loaded; the invariant is preserved. -/
theorem place_finish (all : List KeySeq) (m : NgramPlacementManager)
    (ordered' : List KeySeq)
    (hall : m.all_ngrams = all)
    (hidx : m._current_index = m.ordered_ngrams.length)
    (hlt : m.ordered_ngrams.length < all.length)
    (hcur : all[m.ordered_ngrams.length]? = some m.current_ngram)
    (hperm : m.ordered_ngrams.Perm (all.take m.ordered_ngrams.length))
    (hperm' : ordered'.Perm (m.current_ngram :: m.ordered_ngrams)) :
    ∃ m',
      (if ¬ (NgramPlacementManager.is_finished
          { m with
            ordered_ngrams := ordered',
            _current_index := m._current_index + 1 }) = true then
        (NgramPlacementManager._start_placing_next_ngram
          { m with
            ordered_ngrams := ordered',
            _current_index := m._current_index + 1 }) >>=
          (fun m'' => pure (m'', some m.current_ngram))
      else pure ({ m with
        ordered_ngrams := ordered',
        _current_index := m._current_index + 1 },
        some m.current_ngram)) =
        (.ok (m', some m.current_ngram) :
          Except String (NgramPlacementManager × Option KeySeq)) ∧
      PlaceInv all m' ∧
      m'.ordered_ngrams.length = m.ordered_ngrams.length + 1 := by
  have hlen' : ordered'.length = m.ordered_ngrams.length + 1 := by
    rw [hperm'.length_eq, List.length_cons]
  have hgetcur : m.current_ngram =
      all.get ⟨m.ordered_ngrams.length, hlt⟩ := by
    have h1 := List.getElem?_eq_getElem hlt
    rw [hcur] at h1
    exact Option.some.inj h1
  have hperm'' : ordered'.Perm
      (all.take (m.ordered_ngrams.length + 1)) := by
    have h2 : (m.current_ngram :: m.ordered_ngrams).Perm
        (m.ordered_ngrams ++ [m.current_ngram]) :=
      (List.perm_append_singleton _ _).symm
    have h3 : (m.ordered_ngrams ++ [m.current_ngram]).Perm
        (all.take m.ordered_ngrams.length ++ [m.current_ngram]) :=
      hperm.append_right _
    have h4 : all.take m.ordered_ngrams.length ++ [m.current_ngram] =
        all.take (m.ordered_ngrams.length + 1) := by
      rw [hgetcur, ← List.concat_eq_append]
      exact List.take_concat_get all m.ordered_ngrams.length hlt
    exact hperm'.trans (h2.trans (h3.trans (h4 ▸ List.Perm.refl _)))
  cases hq : NgramPlacementManager.is_finished
      { m with
        ordered_ngrams := ordered',
        _current_index := m._current_index + 1 } with
  | false =>
    have hlt' : ordered'.length < all.length := by
      have := hq
      unfold NgramPlacementManager.is_finished at this
      simp only [ge_iff_le, decide_eq_false_iff_not, not_le] at this
      rw [hall] at this
      exact this
    have hsome : all[m._current_index + 1]? =
        some (all.get ⟨ordered'.length, hlt'⟩) := by
      rw [hidx, ← hlen']
      exact List.getElem?_eq_getElem hlt'
    refine ⟨{ m with
        ordered_ngrams := ordered',
        _current_index := m._current_index + 1,
        current_ngram := all.get ⟨ordered'.length, hlt'⟩,
        placement_state := splitState ordered' .right,
        _current_ngram_movement_history := [] }, ?_, ?_, ?_⟩
    · simp only [Bool.false_eq_true, not_false_iff, if_true]
      unfold NgramPlacementManager._start_placing_next_ngram
      dsimp only
      rw [hall, hsome]
      rfl
    · refine ⟨hall, ?_, ?_, ?_, ?_⟩
      · dsimp only
        rw [hidx, hlen']
      · dsimp only
        exact Nat.le_of_lt hlt'
      · dsimp only
        rw [hlen']
        exact hperm''
      · intro hlt''
        exact ⟨List.getElem?_eq_getElem hlt', rfl⟩
    · dsimp only
      exact hlen'
  | true =>
    refine ⟨{ m with
        ordered_ngrams := ordered',
        _current_index := m._current_index + 1 }, ?_, ?_, ?_⟩
    · rw [if_neg (by simp)]
      rfl
    · have hge : all.length ≤ ordered'.length := by
        have hq' := hq
        unfold NgramPlacementManager.is_finished at hq'
        simp only [ge_iff_le, decide_eq_true_eq] at hq'
        rw [hall] at hq'
        exact hq'
      refine ⟨hall, ?_, ?_, ?_, ?_⟩
      · dsimp only
        rw [hidx, hlen']
      · dsimp only
        omega
      · dsimp only
        have h6 : ordered'.length = all.length := by omega
        rw [h6, List.take_length]
        have h5 : all.take (m.ordered_ngrams.length + 1) = all := by
          have h7 : m.ordered_ngrams.length + 1 = all.length := by omega
          rw [h7, List.take_length]
        rw [h5] at hperm''
        exact hperm''
      · intro hc
        dsimp only at hc
        omega
    · dsimp only
      exact hlen'

/-- One placement step from an invariant state strictly before the end:
it succeeds, returns the placed ngram, and preserves the invariant while
growing the ordered list by one. -/
theorem place_step (all : List KeySeq) (m : NgramPlacementManager)
    (hinv : PlaceInv all m)
    (hlt : m.ordered_ngrams.length < all.length) :
    ∃ m', m.place_current_ngram = .ok (m', some m.current_ngram) ∧
      PlaceInv all m' ∧
      m'.ordered_ngrams.length = m.ordered_ngrams.length + 1 := by
  obtain ⟨hall, hidx, hle, hperm, haux⟩ := hinv
  obtain ⟨hcur, hstate⟩ := haux hlt
  have hnotfin : m.is_finished = false := by
    unfold NgramPlacementManager.is_finished
    rw [hall]
    simp only [ge_iff_le, decide_eq_false_iff_not, not_le]
    exact hlt
  have hleft : m.left_of_current =
      (m.ordered_ngrams.take (m.ordered_ngrams.length / 2)).getLast? := by
    unfold NgramPlacementManager.left_of_current
    rw [hstate, splitState_right]
  have hright : m.right_of_current =
      (m.ordered_ngrams.drop (m.ordered_ngrams.length / 2)).head? := by
    unfold NgramPlacementManager.right_of_current
    rw [hstate, splitState_right]
  unfold NgramPlacementManager.place_current_ngram
  simp only [hnotfin, Bool.false_eq_true, if_false]
  rcases hL : (m.ordered_ngrams.take
      (m.ordered_ngrams.length / 2)).getLast? with _ | left
  · rcases hR : (m.ordered_ngrams.drop
        (m.ordered_ngrams.length / 2)).head? with _ | right
    · rw [hleft, hL, hright, hR]
      dsimp only
      simp only [except_pure_bind]
      exact place_finish all m _ hall hidx hlt hcur hperm
        (List.perm_append_singleton _ _)
    · have hh : right ∈ (m.ordered_ngrams.drop
          (m.ordered_ngrams.length / 2)).head? := by
        rw [hR]
        rfl
      have hmem : right ∈ m.ordered_ngrams :=
        List.drop_subset _ _ (List.mem_of_mem_head? hh)
      rw [hleft, hL, hright, hR]
      dsimp only
      unfold pylist_index
      rw [if_pos hmem]
      simp only [except_ok_bind, except_pure_bind]
      exact place_finish all m _ hall hidx hlt hcur hperm
        (pylist_insert_perm _ _ _)
  · have hh : left ∈ (m.ordered_ngrams.take
        (m.ordered_ngrams.length / 2)).getLast? := by
      rw [hL]
      rfl
    have hmem : left ∈ m.ordered_ngrams :=
      List.take_subset _ _ (List.mem_of_mem_getLast? hh)
    rw [hleft, hL]
    dsimp only
    unfold pylist_index
    rw [if_pos hmem]
    simp only [except_ok_bind, except_pure_bind]
    exact place_finish all m _ hall hidx hlt hcur hperm
      (pylist_insert_perm _ _ _)

/-- `place_current_ngram()` iterated `n` times, always accepting the
default midpoint (no narrowing in between). -/
def place_times : NgramPlacementManager → Nat →
    Except String NgramPlacementManager
| m, 0 => .ok m
| m, n + 1 =>
  match m.place_current_ngram with
  | .error e => .error e
  | .ok (m', _) => place_times m' n

theorem place_times_spec (all : List KeySeq) :
    ∀ (k : Nat) (m : NgramPlacementManager), PlaceInv all m →
      m.ordered_ngrams.length + k = all.length →
      ∃ mf, place_times m k = .ok mf ∧ PlaceInv all mf ∧
        mf.ordered_ngrams.length = all.length
| 0, m, hinv, hlen => ⟨m, rfl, hinv, by omega⟩
| k + 1, m, hinv, hlen => by
  have hlt : m.ordered_ngrams.length < all.length := by omega
  obtain ⟨m', hplace, hinv', hlen'⟩ := place_step all m hinv hlt
  obtain ⟨mf, hmf, hinvf, hlenf⟩ := place_times_spec all k m' hinv'
    (by omega)
  refine ⟨mf, ?_, hinvf, hlenf⟩
  unfold place_times
  rw [hplace]
  exact hmf

theorem perm_count_keyseq {l1 l2 : List KeySeq} (h : l1.Perm l2)
    (x : KeySeq) : l1.count x = l2.count x := by
  induction h with
  | nil => rfl
  | cons a _ ih => simp only [List.count_cons, ih]
  | swap a b l => simp only [List.count_cons]; omega
  | trans _ _ ih1 ih2 => exact ih1.trans ih2

theorem count_eq_one_keyseq :
    ∀ (l : List KeySeq) (x : KeySeq), l.Nodup → x ∈ l → l.count x = 1
| a :: l, x, hnd, hx => by
  rcases List.mem_cons.mp hx with hxa | hxl
  · subst hxa
    have ha : x ∉ l := (List.nodup_cons.mp hnd).1
    rw [List.count_cons, List.count_eq_zero.mpr ha]
    simp
  · have hne : a ≠ x := by
      intro hc
      subst hc
      exact (List.nodup_cons.mp hnd).1 hxl
    rw [List.count_cons,
      count_eq_one_keyseq l x (List.nodup_cons.mp hnd).2 hxl]
    simp [hne]

/-- C4 (amended with distinctness): for every non-empty universe of
pairwise-distinct sequences, N default placements fill `ordered_ngrams`
with all N universe elements, each exactly once, and finish. -/
theorem c4_placement_roundtrip (all : List KeySeq) (hne : all ≠ [])
    (hnd : all.Nodup) :
    ∃ m0 mf, NgramPlacementManager.mk_manager all = .ok m0 ∧
      place_times m0 all.length = .ok mf ∧
      mf.ordered_ngrams.length = all.length ∧
      mf.is_finished = true ∧
      ∀ x ∈ all, mf.ordered_ngrams.count x = 1 := by
  match all, hne with
  | a :: rest, _ =>
    have hinv0 : PlaceInv (a :: rest)
        ⟨a :: rest, 0, a, [], ⟨none, none, [], []⟩, []⟩ := by
      refine ⟨rfl, rfl, by simp, by simp, ?_⟩
      intro h
      constructor
      · show (a :: rest)[0]? = some a
        simp
      · show (⟨none, none, [], []⟩ : NgramPlacementState) =
          splitState [] .right
        decide
    obtain ⟨mf, hpt, hinvf, hlenf⟩ := place_times_spec (a :: rest)
      (a :: rest).length ⟨a :: rest, 0, a, [], ⟨none, none, [], []⟩, []⟩
      hinv0 (by simp)
    refine ⟨_, mf, mk_manager_cons a rest, hpt, hlenf, ?_, ?_⟩
    · unfold NgramPlacementManager.is_finished
      rw [hinvf.1, hlenf]
      simp
    · intro x hx
      have hpermf : mf.ordered_ngrams.Perm
          ((a :: rest).take mf.ordered_ngrams.length) := hinvf.2.2.2.1
      rw [hlenf, List.take_length] at hpermf
      rw [perm_count_keyseq hpermf]
      exact count_eq_one_keyseq _ x hnd hx

/-- Witness for C4's amended theorem at the universe
`[(0,), (1,), (2,)]`. -/
theorem c4_placement_roundtrip_witness :
    ∃ m0 mf, NgramPlacementManager.mk_manager [[0], [1], [2]] = .ok m0 ∧
      place_times m0 ([[0], [1], [2]] : List KeySeq).length = .ok mf ∧
      mf.ordered_ngrams.length = ([[0], [1], [2]] : List KeySeq).length ∧
      mf.is_finished = true ∧
      ∀ x ∈ ([[0], [1], [2]] : List KeySeq),
        mf.ordered_ngrams.count x = 1 :=
  c4_placement_roundtrip [[0], [1], [2]] (by decide) (by decide)

/-- The manager freshly constructed over the duplicate universe
`[(0,), (0,)]`. -/
def dupUniverseStart : NgramPlacementManager :=
  ⟨[[0], [0]], 0, [0], [], ⟨none, none, [], []⟩, []⟩

/-- The same manager after its two placements. -/
def dupUniverseDone : NgramPlacementManager :=
  ⟨[[0], [0]], 2, [0], [[0], [0]], ⟨none, some [0], [], [[0]]⟩, []⟩

/-- C4 counterexample: with the (non-empty) universe `[(0,), (0,)]`,
two default placements finish with the right length, but the universe
element `(0,)` appears twice in `ordered_ngrams`, not exactly once. -/
theorem c4_duplicate_universe_counterexample :
    NgramPlacementManager.mk_manager [[0], [0]] = .ok dupUniverseStart ∧
    place_times dupUniverseStart 2 = .ok dupUniverseDone ∧
    dupUniverseDone.ordered_ngrams.length = 2 ∧
    dupUniverseDone.is_finished = true ∧
    [0] ∈ ([[0], [0]] : List KeySeq) ∧
    dupUniverseDone.ordered_ngrams.count [0] = 2 := by
  refine ⟨mk_manager_cons [0] [[0]], ?_, rfl, rfl, ?_, ?_⟩
  · rfl
  · simp
  · rfl

/-! ## C9: the ordered-prefix invariant -/

theorem except_error_bind {α β : Type} (e : String)
    (f : α → Except String β) :
    ((Except.error e : Except String α) >>= f) = .error e := rfl

/-- `List.erase` respects permutation (stated for the ambient `BEq`
instance of key sequences). -/
theorem perm_erase_keyseq (a : KeySeq) {l1 l2 : List KeySeq}
    (h : l1.Perm l2) : (l1.erase a).Perm (l2.erase a) := by
  induction h with
  | nil => exact List.Perm.refl _
  | cons b _ ih =>
    by_cases hb : b = a
    · subst hb
      simp only [List.erase_cons_head]
      assumption
    · have hb' : ¬ (b == a) = true := by simp [hb]
      rw [List.erase_cons_tail hb', List.erase_cons_tail hb']
      exact ih.cons b
  | swap x y l =>
    by_cases hx : x = a <;> by_cases hy : y = a
    · subst hx
      subst hy
      simp [List.erase_cons_head]
    · subst hx
      have hy' : ¬ (y == x) = true := by simp [hy]
      rw [List.erase_cons_tail hy', List.erase_cons_head,
        List.erase_cons_head]
    · subst hy
      have hx' : ¬ (x == y) = true := by simp [hx]
      rw [List.erase_cons_head, List.erase_cons_tail hx',
        List.erase_cons_head]
    · have hx' : ¬ (x == a) = true := by simp [hx]
      have hy' : ¬ (y == a) = true := by simp [hy]
      rw [List.erase_cons_tail hx', List.erase_cons_tail hy',
        List.erase_cons_tail hy', List.erase_cons_tail hx']
      exact List.Perm.swap x y _
  | trans _ _ ih1 ih2 => exact ih1.trans ih2

theorem toFinset_take_succ (l : List KeySeq) (i : Nat) (h : i < l.length) :
    (l.take (i + 1)).toFinset =
      insert (l.get ⟨i, h⟩) (l.take i).toFinset := by
  rw [← List.take_concat_get l i h, List.concat_eq_append,
    List.toFinset_append]
  rw [Finset.union_comm]
  simp [← Finset.insert_eq]

/-- The invariant of C9: the cursor counts the placed ngrams, and the
placed ngrams form exactly the set of the universe prefix below the
cursor; additionally (internal strengthening needed for induction) the
current ngram is the universe element at the cursor while in range. -/
def ManagerInv (m : NgramPlacementManager) : Prop :=
  m.ordered_ngrams.length = m._current_index ∧
  m.ordered_ngrams.toFinset =
    (m.all_ngrams.take m._current_index).toFinset ∧
  (m._current_index < m.all_ngrams.length →
    m.all_ngrams[m._current_index]? = some m.current_ngram)

theorem start_placing_fields (m m' : NgramPlacementManager)
    (h : m._start_placing_next_ngram = .ok m') :
    m'.ordered_ngrams = m.ordered_ngrams ∧
    m'._current_index = m._current_index ∧
    m'.all_ngrams = m.all_ngrams ∧
    m.all_ngrams[m._current_index]? = some m'.current_ngram := by
  unfold NgramPlacementManager._start_placing_next_ngram at h
  cases hg : m.all_ngrams[m._current_index]? with
  | none =>
    rw [hg] at h
    exact Except.noConfusion h
  | some ng =>
    rw [hg] at h
    have h' := Except.ok.inj h
    subst h'
    exact ⟨rfl, rfl, rfl, rfl⟩

theorem managerInv_start_placing (m m' : NgramPlacementManager)
    (h1 : m.ordered_ngrams.length = m._current_index)
    (h2 : m.ordered_ngrams.toFinset =
      (m.all_ngrams.take m._current_index).toFinset)
    (h : m._start_placing_next_ngram = .ok m') :
    ManagerInv m' ∧ m'.all_ngrams = m.all_ngrams := by
  obtain ⟨ho, hi, ha, hc⟩ := start_placing_fields m m' h
  refine ⟨⟨?_, ?_, ?_⟩, ha⟩
  · rw [ho, hi]
    exact h1
  · rw [ho, hi, ha]
    exact h2
  · intro _
    rw [hi, ha]
    exact hc

theorem managerInv_mk (all : List KeySeq) (m : NgramPlacementManager)
    (h : NgramPlacementManager.mk_manager all = .ok m) :
    ManagerInv m ∧ m.all_ngrams = all := by
  cases all with
  | nil =>
    have hne : NgramPlacementManager.mk_manager ([] : List KeySeq) =
        .error "IndexError: list index out of range" := rfl
    rw [hne] at h
    exact Except.noConfusion h
  | cons a rest =>
    rw [mk_manager_cons] at h
    have h' := Except.ok.inj h
    subst h'
    refine ⟨⟨rfl, by simp, ?_⟩, rfl⟩
    intro _
    show (a :: rest)[0]? = some a
    simp

theorem managerInv_move_left (m : NgramPlacementManager)
    (hinv : ManagerInv m) :
    ManagerInv m.move_left ∧ (m.move_left).all_ngrams = m.all_ngrams := by
  unfold NgramPlacementManager.move_left
  split
  · exact ⟨hinv, rfl⟩
  · exact ⟨⟨hinv.1, hinv.2.1, hinv.2.2⟩, rfl⟩

theorem managerInv_move_right (m : NgramPlacementManager)
    (hinv : ManagerInv m) :
    ManagerInv m.move_right ∧
      (m.move_right).all_ngrams = m.all_ngrams := by
  unfold NgramPlacementManager.move_right
  split
  · exact ⟨hinv, rfl⟩
  · exact ⟨⟨hinv.1, hinv.2.1, hinv.2.2⟩, rfl⟩

theorem managerInv_move_back (m : NgramPlacementManager)
    (hinv : ManagerInv m) :
    ManagerInv m.move_back ∧ (m.move_back).all_ngrams = m.all_ngrams := by
  unfold NgramPlacementManager.move_back
  split
  · exact ⟨hinv, rfl⟩
  · split
    · exact ⟨⟨hinv.1, hinv.2.1, hinv.2.2⟩, rfl⟩
    · exact ⟨hinv, rfl⟩

theorem managerInv_reset (m m' : NgramPlacementManager)
    (hinv : ManagerInv m)
    (h : m.reset_current_ngram = .ok m') :
    ManagerInv m' ∧ m'.all_ngrams = m.all_ngrams := by
  unfold NgramPlacementManager.reset_current_ngram at h
  split at h
  · have h' := Except.ok.inj h
    subst h'
    exact ⟨hinv, rfl⟩
  · exact managerInv_start_placing m m' hinv.1 hinv.2.1 h

theorem managerInv_load (m m' : NgramPlacementManager) (l : List KeySeq)
    (h : m.load_state l = .ok m') :
    ManagerInv m' ∧ m'.all_ngrams = m.all_ngrams := by
  unfold NgramPlacementManager.load_state at h
  by_cases hset : l.toFinset = (m.all_ngrams.take l.length).toFinset
  · rw [if_neg (by simpa using hset)] at h
    dsimp only at h
    split at h
    · have hres := managerInv_start_placing
        { m with ordered_ngrams := l, _current_index := l.length } m'
        rfl hset h
      exact ⟨hres.1, hres.2⟩
    · have h' := Except.ok.inj h
      subst h'
      rename_i hfin
      refine ⟨⟨rfl, hset, ?_⟩, rfl⟩
      intro hlt
      exfalso
      unfold NgramPlacementManager.is_finished at hfin
      simp only [ge_iff_le, decide_eq_true_eq, not_not] at hfin
      dsimp only at hfin hlt
      omega
  · rw [if_pos (by simpa using hset)] at h
    exact Except.noConfusion h

theorem managerInv_place_tail (m m' : NgramPlacementManager)
    (o : Option KeySeq) (ordered' : List KeySeq)
    (hinv : ManagerInv m)
    (hlt : m._current_index < m.all_ngrams.length)
    (hperm' : ordered'.Perm (m.current_ngram :: m.ordered_ngrams))
    (h : (if ¬ (NgramPlacementManager.is_finished
        { m with
          ordered_ngrams := ordered',
          _current_index := m._current_index + 1 }) = true then
        (NgramPlacementManager._start_placing_next_ngram
          { m with
            ordered_ngrams := ordered',
            _current_index := m._current_index + 1 }) >>=
          (fun m'' => pure (m'', some m.current_ngram))
      else pure ({ m with
        ordered_ngrams := ordered',
        _current_index := m._current_index + 1 },
        some m.current_ngram)) = .ok (m', o)) :
    ManagerInv m' ∧ m'.all_ngrams = m.all_ngrams := by
  have hcur := hinv.2.2 hlt
  obtain ⟨hlt2, hval⟩ := List.getElem?_eq_some.mp hcur
  have hm1len : ordered'.length = m._current_index + 1 := by
    rw [hperm'.length_eq, List.length_cons, hinv.1]
  have hm1set : ordered'.toFinset =
      (m.all_ngrams.take (m._current_index + 1)).toFinset := by
    rw [List.toFinset_eq_of_perm _ _ hperm', List.toFinset_cons, hinv.2.1,
      toFinset_take_succ m.all_ngrams m._current_index hlt]
    congr 1
    exact hval.symm
  split at h
  · rename_i hnotfin
    cases hs : NgramPlacementManager._start_placing_next_ngram
        { m with
          ordered_ngrams := ordered',
          _current_index := m._current_index + 1 } with
    | error e =>
      rw [hs, except_error_bind] at h
      exact Except.noConfusion h
    | ok m'' =>
      rw [hs, except_ok_bind] at h
      have h' := (Prod.mk.injEq _ _ _ _).mp (Except.ok.inj h)
      have h'' := h'.1
      subst h''
      exact managerInv_start_placing
        { m with
          ordered_ngrams := ordered',
          _current_index := m._current_index + 1 } _ hm1len hm1set hs
  · rename_i hfin
    have h' := (Prod.mk.injEq _ _ _ _).mp (Except.ok.inj h)
    have h'' := h'.1
    subst h''
    simp only [not_not] at hfin
    refine ⟨⟨hm1len, hm1set, ?_⟩, rfl⟩
    intro hlt3
    exfalso
    unfold NgramPlacementManager.is_finished at hfin
    simp only [ge_iff_le, decide_eq_true_eq] at hfin
    dsimp only at hfin hlt3
    omega

theorem managerInv_place (m m' : NgramPlacementManager) (o : Option KeySeq)
    (hinv : ManagerInv m)
    (h : m.place_current_ngram = .ok (m', o)) :
    ManagerInv m' ∧ m'.all_ngrams = m.all_ngrams := by
  unfold NgramPlacementManager.place_current_ngram at h
  cases hfin : m.is_finished with
  | true =>
    rw [hfin] at h
    simp only [if_true] at h
    have h' := (Prod.mk.injEq _ _ _ _).mp (Except.ok.inj h)
    have h'' := h'.1
    subst h''
    exact ⟨hinv, rfl⟩
  | false =>
    rw [hfin] at h
    simp only [Bool.false_eq_true, if_false] at h
    have h1 := hinv.1
    have hlt : m._current_index < m.all_ngrams.length := by
      unfold NgramPlacementManager.is_finished at hfin
      simp only [ge_iff_le, decide_eq_false_iff_not, not_le] at hfin
      omega
    cases hLo : m.left_of_current with
    | some l =>
      rw [hLo] at h
      dsimp only at h
      unfold pylist_index at h
      by_cases hmem : l ∈ m.ordered_ngrams
      · rw [if_pos hmem] at h
        simp only [except_ok_bind, except_pure_bind] at h
        exact managerInv_place_tail m m' o _ hinv hlt
          (pylist_insert_perm _ _ _) h
      · rw [if_neg hmem] at h
        simp only [except_error_bind] at h
        exact Except.noConfusion h
    | none =>
      rw [hLo] at h
      dsimp only at h
      cases hRo : m.right_of_current with
      | some r =>
        rw [hRo] at h
        dsimp only at h
        unfold pylist_index at h
        by_cases hmem : r ∈ m.ordered_ngrams
        · rw [if_pos hmem] at h
          simp only [except_ok_bind, except_pure_bind] at h
          exact managerInv_place_tail m m' o _ hinv hlt
            (pylist_insert_perm _ _ _) h
        · rw [if_neg hmem] at h
          simp only [except_error_bind] at h
          exact Except.noConfusion h
      | none =>
        rw [hRo] at h
        dsimp only at h
        simp only [except_pure_bind] at h
        exact managerInv_place_tail m m' o _ hinv hlt
          (List.perm_append_singleton _ _) h

theorem managerInv_previous (m m' : NgramPlacementManager)
    (hnd : m.all_ngrams.Nodup) (hinv : ManagerInv m)
    (h : m.previous_ngram = .ok m') :
    ManagerInv m' ∧ m'.all_ngrams = m.all_ngrams := by
  unfold NgramPlacementManager.previous_ngram at h
  by_cases hidx0 : m._current_index < 1
  · rw [if_pos hidx0] at h
    exact managerInv_reset m m' hinv h
  · rw [if_neg hidx0] at h
    cases hg : m.all_ngrams[m._current_index - 1]? with
    | none =>
      rw [hg] at h
      simp only [except_error_bind] at h
      exact Except.noConfusion h
    | some prev =>
      rw [hg] at h
      dsimp only at h
      simp only [except_pure_bind] at h
      by_cases hmem : prev ∈ m.ordered_ngrams
      · rw [if_pos hmem] at h
        obtain ⟨hlt1, hget⟩ := List.getElem?_eq_some.mp hg
        have hidxle : m._current_index ≤ m.all_ngrams.length := by omega
        have htake_nodup :
            (m.all_ngrams.take m._current_index).Nodup :=
          List.Nodup.sublist (List.take_sublist _ _) hnd
        have hlen_take :
            (m.all_ngrams.take m._current_index).length =
              m._current_index := by
          rw [List.length_take]
          omega
        have hnodup_ord : m.ordered_ngrams.Nodup := by
          have hdedup : m.ordered_ngrams.dedup.length =
              m.ordered_ngrams.length := by
            rw [← List.card_toFinset, hinv.2.1,
              List.toFinset_card_of_nodup htake_nodup, hlen_take, hinv.1]
          exact List.dedup_eq_self.mp
            (List.Sublist.eq_of_length (List.dedup_sublist _) hdedup)
        have hperm_ord : m.ordered_ngrams.Perm
            (m.all_ngrams.take m._current_index) :=
          List.perm_of_nodup_nodup_toFinset_eq hnodup_ord htake_nodup
            hinv.2.1
        have htk0 : m.all_ngrams.take ((m._current_index - 1) + 1) =
            m.all_ngrams.take (m._current_index - 1) ++ [prev] := by
          rw [← List.take_concat_get m.all_ngrams
            (m._current_index - 1) hlt1, List.concat_eq_append, hget]
        have htk : m.all_ngrams.take m._current_index =
            m.all_ngrams.take (m._current_index - 1) ++ [prev] := by
          have h1 : m._current_index - 1 + 1 = m._current_index := by omega
          conv_lhs => rw [← h1]
          exact htk0
        have hprev_notin : prev ∉
            m.all_ngrams.take (m._current_index - 1) := by
          intro hc
          have hnd2 := htake_nodup
          rw [htk] at hnd2
          exact (List.nodup_append.mp hnd2).2.2 hc (by simp)
        have herase_eq :
            (m.all_ngrams.take m._current_index).erase prev =
              m.all_ngrams.take (m._current_index - 1) := by
          rw [htk, List.erase_append_right _ hprev_notin,
            List.erase_cons_head]
          simp
        have hperm_erase : (m.ordered_ngrams.erase prev).Perm
            (m.all_ngrams.take (m._current_index - 1)) := by
          have hpe := perm_erase_keyseq prev hperm_ord
          rw [herase_eq] at hpe
          exact hpe
        have hres := managerInv_start_placing
          { m with
            ordered_ngrams := m.ordered_ngrams.erase prev,
            _current_index := m._current_index - 1 } m' ?_ ?_ h
        · exact hres
        · show (m.ordered_ngrams.erase prev).length =
            m._current_index - 1
          rw [List.length_erase_of_mem hmem, hinv.1]
        · show (m.ordered_ngrams.erase prev).toFinset =
            (m.all_ngrams.take (m._current_index - 1)).toFinset
          exact List.toFinset_eq_of_perm _ _ hperm_erase
      · rw [if_neg hmem] at h
        exact Except.noConfusion h

/-- Managers reachable from construction over the universe `all` through
the public operations. -/
inductive ManagerReachable (all : List KeySeq) :
    NgramPlacementManager → Prop
| init (m : NgramPlacementManager) :
    NgramPlacementManager.mk_manager all = .ok m → ManagerReachable all m
| place_op (m m' : NgramPlacementManager) (o : Option KeySeq) :
    ManagerReachable all m → m.place_current_ngram = .ok (m', o) →
    ManagerReachable all m'
| move_left_op (m : NgramPlacementManager) :
    ManagerReachable all m → ManagerReachable all m.move_left
| move_right_op (m : NgramPlacementManager) :
    ManagerReachable all m → ManagerReachable all m.move_right
| move_back_op (m : NgramPlacementManager) :
    ManagerReachable all m → ManagerReachable all m.move_back
| reset_op (m m' : NgramPlacementManager) :
    ManagerReachable all m → m.reset_current_ngram = .ok m' →
    ManagerReachable all m'
| previous_op (m m' : NgramPlacementManager) :
    ManagerReachable all m → m.previous_ngram = .ok m' →
    ManagerReachable all m'
| load_op (m : NgramPlacementManager) (l : List KeySeq)
    (m' : NgramPlacementManager) :
    ManagerReachable all m → m.load_state l = .ok m' →
    ManagerReachable all m'

/-- C9: for a universe of pairwise-distinct ngrams, after construction
and after every sequence of public operations, `ordered_ngrams` has
exactly cursor-many elements and its set equals the set of the first
cursor-many universe elements. -/
theorem c9_ordered_prefix_invariant (all : List KeySeq)
    (m : NgramPlacementManager) (hnd : all.Nodup)
    (hr : ManagerReachable all m) :
    m.ordered_ngrams.length = m._current_index ∧
    m.ordered_ngrams.toFinset =
      (m.all_ngrams.take m._current_index).toFinset := by
  suffices h : ManagerInv m ∧ m.all_ngrams = all by
    exact ⟨h.1.1, h.1.2.1⟩
  induction hr with
  | init m hm => exact managerInv_mk all m hm
  | place_op m m' o _ hp ih =>
    have hres := managerInv_place m m' o ih.1 hp
    exact ⟨hres.1, hres.2.trans ih.2⟩
  | move_left_op m _ ih =>
    have hres := managerInv_move_left m ih.1
    exact ⟨hres.1, hres.2.trans ih.2⟩
  | move_right_op m _ ih =>
    have hres := managerInv_move_right m ih.1
    exact ⟨hres.1, hres.2.trans ih.2⟩
  | move_back_op m _ ih =>
    have hres := managerInv_move_back m ih.1
    exact ⟨hres.1, hres.2.trans ih.2⟩
  | reset_op m m' _ hre ih =>
    have hres := managerInv_reset m m' ih.1 hre
    exact ⟨hres.1, hres.2.trans ih.2⟩
  | previous_op m m' _ hpr ih =>
    have hndm : m.all_ngrams.Nodup := by
      rw [ih.2]
      exact hnd
    have hres := managerInv_previous m m' hndm ih.1 hpr
    exact ⟨hres.1, hres.2.trans ih.2⟩
  | load_op m l m' _ hl ih =>
    have hres := managerInv_load m m' l hl
    exact ⟨hres.1, hres.2.trans ih.2⟩

/-- Witness for C9 at the freshly constructed manager over
`[(0,), (1,)]`. -/
theorem c9_ordered_prefix_invariant_witness :
    ([] : List KeySeq).length =
      (⟨[[0], [1]], 0, [0], [], ⟨none, none, [], []⟩, []⟩ :
        NgramPlacementManager)._current_index ∧
    ([] : List KeySeq).toFinset =
      (([[0], [1]] : List KeySeq).take 0).toFinset :=
  c9_ordered_prefix_invariant [[0], [1]]
    ⟨[[0], [1]], 0, [0], [], ⟨none, none, [], []⟩, []⟩ (by decide)
    (ManagerReachable.init _ (mk_manager_cons [0] [[1]]))

/-- Witness for C6's count formula at the example hands and the tuple
`(2,)`. -/
theorem c6_create_permutations_witness :
    (create_permutations exampleLeftHand exampleRightHand [1]).count [2] =
      if permutation_is_typable exampleLeftHand exampleRightHand [2] = true
        then List.count ([2] : List Nat).length [1] else 0 :=
  c6_create_permutations.2.2.1 exampleLeftHand exampleRightHand [1] [2]
